import Mathlib

/-!
Verification of the dual-domain red-black symbol table
(`src/data-structures/tree/red-black-tree/RedBlackTree.js` and
`RedBlackNode.js`).  JavaScript values are modelled by `JSVal`,
the per-domain trees by `RBTree K` (with `K = Int` for the numeric
tree and `K = String` for the string tree), and exceptions by
`Except Err`.  Every definition is a direct transcription of the
corresponding JavaScript function; the few places where the source
would raise a runtime `TypeError` are modelled by explicit error
results, each marked with a comment quoting the offending line.
-/

namespace RedBlack

/-- A JavaScript value, as far as this library manipulates them:
numbers (the library only ever uses integer keys/values), strings,
booleans, `null`, and a catch-all for plain objects (used by
`insert`, which passes `{ value: val }` as the `key` argument). -/
inductive JSVal where
  | num (n : Int)
  | str (s : String)
  | bool (b : Bool)
  | null
  | obj
deriving DecidableEq, Repr

/-- JavaScript truthiness of a `JSVal` (`0`, `''`, `false`, `null`
are falsy; any plain object is truthy). -/
def truthy : JSVal → Bool
  | .num n => n != 0
  | .str s => !s.isEmpty
  | .bool b => b
  | .null => false
  | .obj => true

/-- String coercion applied by JavaScript when a value is used as a
property key of the `invertedIndex` object. -/
def jsToString : JSVal → String
  | .num n => toString n
  | .str s => s
  | .bool true => "true"
  | .bool false => "false"
  | .null => "null"
  | .obj => "[object Object]"

/-- A `Set` of keys in the inverted index, in insertion order. -/
abbrev Bucket := List JSVal

/-- The `invertedIndex` object: property name (the string coercion of
a value) to the `Set` of keys holding that value. -/
abbrev Index := List (String × Bucket)

/-- Property lookup on the `invertedIndex` object (property names are
unique, so the first match is the only one). -/
def idxLookup : Index → String → Option Bucket
  | [], _ => none
  | (s2, b) :: tl, s => if s2 = s then some b else idxLookup tl s

/-- `Set.prototype.add`: appends unless already present. -/
def bucketAdd (b : Bucket) (m : JSVal) : Bucket :=
  if m ∈ b then b else b ++ [m]

/-- `invertedIndex[v] === undefined ? new Set([k]) : invertedIndex[v].add(k)`
(RedBlackTree.js lines 137-141 and 166-170). -/
def idxAdd : Index → String → JSVal → Index
  | [], s, m => [(s, [m])]
  | (s2, b) :: tl, s, m =>
      if s2 = s then (s2, bucketAdd b m) :: tl else (s2, b) :: idxAdd tl s m

/-- `Set.prototype.delete` on the bucket named `s` (no-op if the
member is absent). -/
def idxDel : Index → String → JSVal → Index
  | [], _, _ => []
  | (s2, b) :: tl, s, m =>
      if s2 = s then (s2, b.filter (fun x => x != m)) :: tl
      else (s2, b) :: idxDel tl s m

/-- Error conditions surfaced by the library (thrown `Error`s and the
runtime `TypeError`s the code can produce). -/
inductive Err where
  | valueNull          -- 'Value can not be null!'
  | invalidKey         -- 'Expect string or number, found null'
  | keyValueNotFound   -- 'Key and value not found'
  | keyTooLong         -- 'String type key exceed STRING_ENCODING_LENGTH'
  | typeError          -- a JavaScript TypeError (null dereference, call of undefined, ...)
  | typeMismatch       -- 'Not consistent comparation type: ... versus ...'
  | outOfFuel          -- artefact of the fuelled recursion, never hit with enough fuel
  | heterogeneous      -- see `RBT.removeString`: line 306 stores a string-keyed
                       -- tree object in `numberRoot`; the typed model cannot
                       -- represent that polluted state, so it is flagged
deriving DecidableEq, Repr

def RED : Bool := true
def BLACK : Bool := false

/-- A `RedBlackNode` (key, value, colour of the parent link, subtree
size, children); `nil` is the JavaScript `null`. -/
inductive RBTree (K : Type) where
  | nil
  | node (key : K) (value : JSVal) (color : Bool) (size : Nat)
      (left right : RBTree K)
deriving DecidableEq, Repr

namespace RBTree

variable {K : Type}

/-- `isRed(node)`: `null` is not red. -/
def isRed : RBTree K → Bool
  | nil => false
  | node _ _ c _ _ _ => c

/-- `sizeAt(node)`. -/
def sizeAt : RBTree K → Nat
  | nil => 0
  | node _ _ _ s _ _ => s

/-- `node.left`, reading `null` for the `nil` case (call sites that
would dereference `null.left` in JavaScript are modelled explicitly). -/
def left : RBTree K → RBTree K
  | nil => nil
  | node _ _ _ _ l _ => l

def right : RBTree K → RBTree K
  | nil => nil
  | node _ _ _ _ _ r => r

def setColor (t : RBTree K) (c : Bool) : RBTree K :=
  match t with
  | nil => nil
  | node k v _ s l r => node k v c s l r

def isNil : RBTree K → Bool
  | nil => true
  | node _ _ _ _ _ _ => false

/-- `node.size = sizeAt(left) + sizeAt(right) + 1` (lines 163 and 509). -/
def recomputeSize : RBTree K → RBTree K
  | nil => nil
  | node k v c _ l r => node k v c (sizeAt l + sizeAt r + 1) l r

/-- `rotateLeft` (lines 393-403).  The `nil`-child case is junk: every
call site first checks `isRed(node.right)`, which guarantees a node. -/
def rotateLeft (t : RBTree K) : RBTree K :=
  match t with
  | node hk hv hc hs hl (node xk xv _ _ xl xr) =>
      node xk xv hc hs
        (node hk hv RED (sizeAt hl + sizeAt xl + 1) hl xl) xr
  | t => t

/-- `rotateRight` (lines 410-420); junk on a `nil` left child, every
call site first checks `isRed(node.left)`. -/
def rotateRight (t : RBTree K) : RBTree K :=
  match t with
  | node hk hv hc hs (node xk xv _ _ xl xr) hr =>
      node xk xv hc hs xl
        (node hk hv RED (sizeAt xr + sizeAt hr + 1) xr hr)
  | t => t

/-- Negate the colour of a child node; `nil` is left alone (the call
sites used with this total version guard both children red). -/
def negChild : RBTree K → RBTree K
  | nil => nil
  | node k v c s l r => node k v (!c) s l r

/-- `flipColors` (lines 426-431), total version.  In `fixRightLining`
and `balance` the guard `isRed(left) && isRed(right)` makes both
children nodes, so this total function agrees with the JavaScript. -/
def flipColors (t : RBTree K) : RBTree K :=
  match t with
  | nil => nil
  | node k v c s l r => node k v (!c) s (negChild l) (negChild r)

/-- `fixRightLining` (lines 475-487).  The source initialises
`fixedNode = node`, but after `fixedNode = rotateLeft(node)` the later
guards still read the local `node` — which now aliases
`fixedNode.left`, whose left link is the unchanged `node.left`; the
first guard required that link to be non-red, so neither later branch
can fire and the rotation result is returned as is.  After
`fixedNode = rotateRight(node)`, `node` aliases `fixedNode.right`, so
the flip branch tests and mutates that right child. -/
def fixRightLining (t : RBTree K) : RBTree K :=
  if isRed t.right && !isRed t.left then
    rotateLeft t
  else if isRed t.left && isRed t.left.left then
    let f := rotateRight t
    if isRed f.right.left && isRed f.right.right then
      match f with
      | node k v c s l r => node k v c s l (flipColors r)
      | nil => nil
    else f
  else if isRed t.left && isRed t.right then
    flipColors t
  else t

/-- `balance` (lines 494-511). -/
def balance (t : RBTree K) : RBTree K :=
  let h := if isRed t.right then rotateLeft t else t
  let h := if isRed h.left && isRed h.left.left then rotateRight h else h
  let h := if isRed h.left && isRed h.right then flipColors h else h
  recomputeSize h

/-- `putRecv` (lines 134-173), parameterised by the comparison used by
`compareTo` for this key domain and by the injection of keys into
`JSVal` for the inverted index.  Returns the new subtree root and the
updated inverted index. -/
def putRecv (cmp : K → K → Int) (inj : K → JSVal) :
    RBTree K → Index → K → JSVal → RBTree K × Index
  | nil, idx, k, v =>
      -- new node inserted; update the inverted index (lines 136-144)
      (node k v RED 1 nil nil, idxAdd idx (jsToString v) (inj k))
  | node key value color size l r, idx, k, v =>
      if cmp k key < 0 then
        let p := putRecv cmp inj l idx k v
        (recomputeSize (fixRightLining (node key value color size p.1 r)),
          idxAdd p.2 (jsToString v) (inj k))
      else if cmp k key > 0 then
        let p := putRecv cmp inj r idx k v
        (recomputeSize (fixRightLining (node key value color size l p.1)),
          idxAdd p.2 (jsToString v) (inj k))
      else
        -- update existing key (line 155): the stored key is kept
        (recomputeSize (fixRightLining (node key v color size l r)),
          idxAdd idx (jsToString v) (inj k))

/-- The tree component of `putRecv` (the recursion never reads the
index, see `putRecv_fst`). -/
def treePut (cmp : K → K → Int) : RBTree K → K → JSVal → RBTree K
  | nil, k, v => node k v RED 1 nil nil
  | node key value color size l r, k, v =>
      let t :=
        if cmp k key < 0 then node key value color size (treePut cmp l k v) r
        else if cmp k key > 0 then node key value color size l (treePut cmp r k v)
        else node key v color size l r
      recomputeSize (fixRightLining t)

/-- `findIter` (lines 225-247) in its `searchNode.value == null` mode:
returns the stored value, or `null` on a miss (the two are the same
JavaScript value when the stored value is `null`). -/
def findIterKey (cmp : K → K → Int) : RBTree K → K → JSVal
  | nil, _ => .null
  | node key value _ _ l r, k =>
      if cmp k key < 0 then findIterKey cmp l k
      else if cmp k key > 0 then findIterKey cmp r k
      else value

/-- `minAt` (lines 561-565); junk on `nil` (the JavaScript would
dereference `null`), every call site passes a node. -/
def minAt : RBTree K → RBTree K
  | nil => nil
  | node k v c s nil r => node k v c s nil r
  | node _ _ _ _ (node lk lv lc ls ll lr) _ => minAt (node lk lv lc ls ll lr)

/-- `moveRedRight` (lines 457-466).  `removeRecv` names this method
without calling it, so it is never applied; it is transcribed for
completeness. -/
def moveRedRight (t : RBTree K) : RBTree K :=
  let h := flipColors t
  if isRed h.left.left then flipColors (rotateRight h) else h

/-- `moveRedLeft` (lines 439-449).  `flipColors` reads
`h.left.color` and `h.right.color`, so a missing child is a
JavaScript `TypeError`; those dereferences are modelled explicitly. -/
def moveRedLeft (t : RBTree K) : Except Err (RBTree K) :=
  match t with
  | nil => .error .typeError              -- h.color on null
  | node k v c s l r =>
      match l, r with
      | nil, _ => .error .typeError       -- h.left.color on null
      | _, nil => .error .typeError       -- h.right.color on null
      | l, r =>
          let h := flipColors (node k v c s l r)
          if isRed h.right.left then
            let h :=
              match h with
              | node hk hv hc hs hl hr => node hk hv hc hs hl (rotateRight hr)
              | nil => nil
            let h := rotateLeft h
            -- the second flipColors reads both children of the new root
            match h with
            | node hk hv hc hs (node a b c2 d e f) (node a2 b2 c3 d2 e2 f2) =>
                .ok (flipColors (node hk hv hc hs (node a b c2 d e f)
                  (node a2 b2 c3 d2 e2 f2)))
            | _ => .error .typeError
          else
            .ok h

/-- `removeRecv` (lines 317-359), fuelled (the rotations make the
recursion non-structural; the fuel passed by `removeNumber` and
`removeString` always suffices).  Faithfully modelled behaviours:

* `removeNode.compareTo(node)` with `node === null` reads
  `null.key` — `TypeError`;
* descending left with `node.left === null` evaluates
  `node.left.left` — `TypeError` (line 321);
* `h = this.moveRedRight` (line 341) stores the method itself in `h`,
  so the following `removeNode.compareTo(h)` sees `h.key === undefined`
  and throws 'Not consistent comparation type' — `typeMismatch`;
* the successor branch calls `this.deleteMin` (line 348), which does
  not exist — `TypeError`;
* on every unwinding step, `this.invertedIndex[h.val]` reads the unset
  property `val` (the field is named `value`), i.e. the bucket named
  `"undefined"`; if no such bucket exists, `.delete` is called on
  `undefined` — `TypeError`.  Otherwise `h.key` is deleted from that
  bucket. -/
def removeRecv (cmp : K → K → Int) (inj : K → JSVal) :
    Nat → RBTree K → Index → K → Except Err (RBTree K × Index)
  | 0, _, _, _ => .error .outOfFuel
  | _ + 1, nil, _, _ => .error .typeError
  | fuel + 1, node key value color size l r, idx, k => do
      let finish : RBTree K → Index → Except Err (RBTree K × Index) :=
        fun h idx =>
          match idxLookup idx "undefined" with
          | none => .error .typeError
          | some _ =>
              match h with
              | nil => .error .typeError       -- h.val on null (unreachable)
              | node hk _ _ _ _ _ =>
                  .ok (balance h, idxDel idx "undefined" (inj hk))
      if cmp k key < 0 then
        match l with
        | nil => .error .typeError             -- node.left.left on null
        | l => do
            let h ←
              if !isRed l && !isRed l.left then
                moveRedLeft (node key value color size l r)
              else
                pure (node key value color size l r)
            let (lt, idx) ← removeRecv cmp inj fuel h.left idx k
            let h :=
              match h with
              | nil => nil
              | node hk hv hc hs _ hr => node hk hv hc hs lt hr
            finish h idx
      else
        let h :=
          if isRed l then rotateRight (node key value color size l r)
          else node key value color size l r
        match h with
        | nil => .error .typeError
        | node hk hv hc hs hl hr =>
            if cmp k hk = 0 && hr.isNil then
              .ok (nil, idx)                  -- splice out (before any index update)
            else
              match hr with
              | nil => .error .typeError       -- h.right.left on null
              | hr =>
                  if !isRed hr && !isRed hr.left then
                    .error .typeMismatch       -- h = this.moveRedRight; compareTo(h) throws
                  else if cmp k hk = 0 then
                    .error .typeError          -- this.deleteMin is not a function
                  else do
                    let (rt, idx) ← removeRecv cmp inj fuel hr idx k
                    finish (node hk hv hc hs hl rt) idx

/-- Count of nodes, used to provide sufficient fuel for `removeRecv`. -/
def countNodes : RBTree K → Nat
  | nil => 0
  | node _ _ _ _ l r => countNodes l + countNodes r + 1

/-- In-order association list of a tree. -/
def inorder : RBTree K → List (K × JSVal)
  | nil => []
  | node k v _ _ l r => inorder l ++ (k, v) :: inorder r

/-- The claimed red-link half of the balance invariant: no red node
has a red child (no two consecutive red links on any path). -/
def redRedFree : RBTree K → Bool
  | nil => true
  | node _ _ c _ l r =>
      (!(c && (isRed l || isRed r))) && redRedFree l && redRedFree r

end RBTree

/-- `compareTo` for two number keys (RedBlackNode.js lines 55-59). -/
def numCompare (a b : Int) : Int :=
  if a > b then 1 else if a < b then -1 else 0

/-- `58 ** 8` (RedBlackNode.js line 8). -/
def STRING_COMBINATION : Int := 58 ^ 8

/-- `decodeStrKey` (RedBlackNode.js lines 33-47): the sum of
`charCodeAt - 64` over all characters after the first, plus
`(first charCodeAt - 64) * 58 ** 8`.  On the empty string
`key.charCodeAt(0)` is `NaN`, modelled as `none`. -/
def decodeStrKey (s : String) : Option Int :=
  match s.data with
  | [] => none
  | c :: rest =>
      some (((rest.map (fun ch => (ch.toNat : Int) - 64)).sum) +
        ((c.toNat : Int) - 64) * STRING_COMBINATION)

/-- `compareTo` for two string keys (RedBlackNode.js lines 60-68):
compare the decoded surrogates; every comparison against `NaN` is
false, so an empty string compares equal to everything. -/
def strCompare (a b : String) : Int :=
  match decodeStrKey a, decodeStrKey b with
  | some x, some y => if x > y then 1 else if x < y then -1 else 0
  | _, _ => 0

/-- Total surrogate measure used to reason about `strCompare` on
nonempty strings. -/
def strMeasure (s : String) : Int :=
  match decodeStrKey s with
  | some x => x
  | none => 0

def injNum (n : Int) : JSVal := .num n
def injStr (s : String) : JSVal := .str s

/-- The result shapes of `find` (value, array of keys,
`{key, value: keys}` record); a JavaScript `null` result is the value
`JSVal.null`. -/
inductive FindResult where
  | val (v : JSVal)
  | keys (ks : Bucket)
  | record (k : JSVal) (ks : Option Bucket)
deriving DecidableEq, Repr

/-- JavaScript truthiness of a `find` result (arrays and records are
always truthy). -/
def FindResult.truthyR : FindResult → Bool
  | .val v => truthy v
  | .keys _ => true
  | .record _ _ => true

/-- The argument object of `find`: either property may be absent. -/
structure FindObj where
  key : Option JSVal := none
  value : Option JSVal := none
deriving DecidableEq, Repr

/-- The whole `RedBlackTree` instance state. -/
structure RBT where
  numberRoot : RBTree Int
  stringRoot : RBTree String
  invertedIndex : Index
deriving DecidableEq, Repr

namespace RBT

/-- The freshly constructed tree. -/
def init : RBT := ⟨.nil, .nil, []⟩

/-- `isEmpty` (lines 76-78). -/
def isEmpty (st : RBT) : Bool :=
  decide (st.numberRoot = .nil) && decide (st.stringRoot = .nil)

/-- `size` (lines 56-61). -/
def size (st : RBT) : Nat :=
  if st.isEmpty then 0
  else if st.numberRoot = .nil then st.stringRoot.sizeAt
  else if st.stringRoot = .nil then st.numberRoot.sizeAt
  else st.numberRoot.sizeAt + st.stringRoot.sizeAt

/-- `put` (lines 112-126).  The `RedBlackNode` constructor rejects
string keys longer than 8 characters; the routing then tests
`typeof key`, so any key that is neither a number nor a string —
including the `null` that `getRandomKey` was meant to replace, and the
options object passed by `insert` — leaves both trees untouched. -/
def put (st : RBT) (key value : JSVal) : Except Err RBT :=
  match key with
  | .str s =>
      if s.length > 8 then .error .keyTooLong
      else
        let p := RBTree.putRecv strCompare injStr st.stringRoot st.invertedIndex s value
        .ok { st with stringRoot := p.1.setColor BLACK, invertedIndex := p.2 }
  | .num n =>
      let p := RBTree.putRecv numCompare injNum st.numberRoot st.invertedIndex n value
      .ok { st with numberRoot := p.1.setColor BLACK, invertedIndex := p.2 }
  | _ => .ok st

/-- `insert` (lines 94-104): rejects `null`, then calls
`this.put({ value: val })`, i.e. passes an object as the key. -/
def insert (st : RBT) (v : JSVal) : Except Err (Bool × RBT) := do
  if v = .null then .error .valueNull
  else do
    let lastSize := st.size
    let st ← st.put .obj v
    if st.size > lastSize then .ok (true, st) else .ok (false, st)

/-- `findIter` in its `{key, value}` mode (lines 225-247): descend by
key; on a key hit, a strict value mismatch returns `null`, otherwise
the `{key, value: keys-or-null}` record made from the inverted index. -/
def findIterKV {K : Type} (cmp : K → K → Int) (inj : K → JSVal)
    (idx : Index) : RBTree K → K → JSVal → FindResult
  | .nil, _, _ => .val .null
  | .node key value _ _ l r, k, v =>
      if cmp k key < 0 then findIterKV cmp inj idx l k v
      else if cmp k key > 0 then findIterKV cmp inj idx r k v
      else if value ≠ v then .val .null
      else .record (inj key) (idxLookup idx (jsToString value))

/-- `find` (lines 186-218).  Presence of `key`/`value` is decided by
truthiness (`obj.key || false`); with both present the `{key, value}`
search runs, with only a truthy key the key search, with only a truthy
value the inverted index is consulted directly, and otherwise the call
throws 'Key and value not found'.  Keys that are neither numbers nor
strings fall through to `null`. -/
def find (st : RBT) (obj : FindObj) : Except Err FindResult :=
  let hasKey := match obj.key with | some v => truthy v | none => false
  let hasValue := match obj.value with | some v => truthy v | none => false
  if hasKey && hasValue then
    match obj.key, obj.value with
    | some (.num n), some v =>
        .ok (findIterKV numCompare injNum st.invertedIndex st.numberRoot n v)
    | some (.str s), some v =>
        .ok (findIterKV strCompare injStr st.invertedIndex st.stringRoot s v)
    | _, _ => .ok (.val .null)
  else if hasKey then
    match obj.key with
    | some (.num n) => .ok (.val (RBTree.findIterKey numCompare st.numberRoot n))
    | some (.str s) => .ok (.val (RBTree.findIterKey strCompare st.stringRoot s))
    | _ => .ok (.val .null)
  else if hasValue then
    match obj.value with
    | some v =>
        match idxLookup st.invertedIndex (jsToString v) with
        | some b => .ok (.keys b)
        | none => .ok (.keys [])
    | none => .ok (.keys [])
  else
    .error .keyValueNotFound

/-- `constains` (sic, lines 254-256): `!!this.find({ key: k })`. -/
def constains (st : RBT) (k : JSVal) : Except Err Bool := do
  let r ← st.find { key := some k }
  .ok r.truthyR

/-- `removeNumber` (lines 282-292).  After the recursion the root
colour is forced black — by dereferencing `this.numberRoot`, which is
a `TypeError` when the numeric tree just became empty while string
keys remain. -/
def removeNumber (st : RBT) (k : Int) : Except Err (Bool × RBT) :=
  match st.numberRoot with
  | .nil => .error .typeError        -- this.numberRoot.left on null
  | root => do
      let root :=
        if !root.left.isRed && !root.right.isRed then root.setColor RED else root
      let (t, idx) ←
        RBTree.removeRecv numCompare injNum (root.countNodes + 1) root st.invertedIndex k
      let st := { st with numberRoot := t, invertedIndex := idx }
      if st.isEmpty then
        .ok (true, st)
      else
        match st.numberRoot with
        | .nil => .error .typeError  -- this.numberRoot.color = BLACK on null
        | nr => .ok (true, { st with numberRoot := nr.setColor BLACK })

/-- `removeString` (lines 299-309).  Note line 306: the result of the
recursive delete on the string tree is assigned to `this.numberRoot`. -/
def removeString (st : RBT) (s : String) : Except Err (Bool × RBT) :=
  match st.stringRoot with
  | .nil => .error .typeError        -- this.stringRoot.left on null
  | root => do
      let root :=
        if !root.left.isRed && !root.right.isRed then root.setColor RED else root
      let st := { st with stringRoot := root }
      let (t, idx) ←
        RBTree.removeRecv strCompare injStr (root.countNodes + 1) root st.invertedIndex s
      -- line 306: this.numberRoot = this.removeRecv(this.stringRoot, removeNode);
      -- the numeric tree is overwritten with the (string-keyed!) result.  When
      -- that result is null the overwrite is representable here; otherwise the
      -- typed model flags the heterogeneous state it cannot hold.
      match t with
      | .node .. => .error .heterogeneous
      | .nil =>
        let st := { st with numberRoot := .nil, invertedIndex := idx }
        if st.isEmpty then
          .ok (true, st)
        else
          match st.stringRoot with
          | .nil => .error .typeError
          | sr => .ok (true, { st with stringRoot := sr.setColor BLACK })

/-- `remove` (lines 263-275). -/
def remove (st : RBT) (key : JSVal) : Except Err (Bool × RBT) := do
  if key = .null then .error .invalidKey
  else do
    let c ← st.constains key
    if !c then .ok (false, st)
    else
      match key with
      | .num n => st.removeNumber n
      | .str s => st.removeString s
      | _ => .ok (false, st)

end RBT

/-- Run a list of `put` operations in order. -/
def applyPuts (st : RBT) : List (JSVal × JSVal) → Except Err RBT
  | [] => .ok st
  | (k, v) :: rest => do
      let st ← st.put k v
      applyPuts st rest

/-! ### Definitions used to state and prove the properties -/

/-- The comparison induced by an integer measure on keys (the shape of
`compareTo` for both key domains, modulo the empty-string `NaN`). -/
def measCmp {K : Type} (m : K → Int) (a b : K) : Int :=
  numCompare (m a) (m b)

/-- Laws of a well-behaved three-way comparison; they hold for any
measure-based comparison, in particular for `numCompare`. -/
structure CmpOk {K : Type} (cmp : K → K → Int) : Prop where
  refl : ∀ a, cmp a a = 0
  neg : ∀ a b, cmp b a = - cmp a b
  lt_trans : ∀ {a b c}, cmp a b < 0 → cmp b c < 0 → cmp a c < 0
  eq_left : ∀ {a b} (c : K), cmp a b = 0 → cmp a c = cmp b c
  eq_right : ∀ (a : K) {b c}, cmp b c = 0 → cmp a b = cmp a c

/-- Sorted-association-list insertion mirroring the effect of `putRecv`
on the in-order traversal: insert in comparison order, or overwrite the
value (keeping the stored key) on a comparison hit. -/
def listInsert {K : Type} (cmp : K → K → Int) :
    List (K × JSVal) → K → JSVal → List (K × JSVal)
  | [], k, v => [(k, v)]
  | (x, w) :: tl, k, v =>
      if cmp k x < 0 then (k, v) :: (x, w) :: tl
      else if cmp k x > 0 then (x, w) :: listInsert cmp tl k v
      else (x, v) :: tl

/-- First association whose key compares equal to `k`. -/
def firstA {K : Type} (cmp : K → K → Int) :
    List (K × JSVal) → K → Option JSVal
  | [], _ => none
  | (x, w) :: tl, k => if cmp k x = 0 then some w else firstA cmp tl k

/-- Number of entries whose key compares equal to `k`. -/
def countEq {K : Type} (cmp : K → K → Int) (l : List (K × JSVal)) (k : K) : Nat :=
  (l.filter (fun p => decide (cmp k p.1 = 0))).length

/-- Strictly increasing (in comparison order) association list. -/
def SortedL {K : Type} (cmp : K → K → Int) (l : List (K × JSVal)) : Prop :=
  l.Pairwise (fun p q => cmp p.1 q.1 < 0)

/-- The binary-search-tree invariant, phrased on the in-order list. -/
def SortedT {K : Type} (cmp : K → K → Int) (t : RBTree K) : Prop :=
  SortedL cmp t.inorder

/-- Does some node of `t` have a key comparing equal to `k`? -/
def hasKeyB {K : Type} (cmp : K → K → Int) : RBTree K → K → Bool
  | .nil, _ => false
  | .node key _ _ _ l r, k =>
      decide (cmp k key = 0) || hasKeyB cmp l k || hasKeyB cmp r k

/-- All keys of a string tree are nonempty (so none of them decodes to
the `NaN` surrogate). -/
def allNE (t : RBTree String) : Prop :=
  ∀ p ∈ t.inorder, ¬Prod.fst p = ""

/-! ### Concrete states used by the closed theorems -/

/-- The state reached by `put(1, 10); put(1, 20)` on a fresh tree:
one node for key `1` holding `20`, but the inverted index still lists
key `1` under the overwritten value `10`. -/
def overwriteState : RBT :=
  ⟨.node 1 (.num 20) BLACK 1 .nil .nil, .nil,
    [("10", [.num 1]), ("20", [.num 1])]⟩

/-- The state reached by `put(0, 5)` on a fresh tree. -/
def zeroKeyState : RBT :=
  ⟨.node 0 (.num 5) BLACK 1 .nil .nil, .nil, [("5", [.num 0])]⟩

/-- The state reached by `put(0, 0)` on a fresh tree. -/
def zeroZeroState : RBT :=
  ⟨.node 0 (.num 0) BLACK 1 .nil .nil, .nil, [("0", [.num 0])]⟩

/-- The state reached by `put(1, 10); put('a', 20)` on a fresh tree:
one numeric entry and one string entry. -/
def mixedState : RBT :=
  ⟨.node 1 (.num 10) BLACK 1 .nil .nil,
   .node "a" (.num 20) BLACK 1 .nil .nil,
   [("10", [.num 1]), ("20", [.str "a"])]⟩

/-- The state reached by `put(1, 10); put(2, 20); put(3, 30)` on a
fresh tree: a black root `2` with black children `1` and `3`. -/
def threeState : RBT :=
  ⟨.node 2 (.num 20) BLACK 3
      (.node 1 (.num 10) BLACK 1 .nil .nil)
      (.node 3 (.num 30) BLACK 1 .nil .nil),
   .nil,
   [("10", [.num 1]), ("20", [.num 2]), ("30", [.num 3])]⟩

/-- The state reached by `put(3, 30); put(2, 20); put(1, 10); put(0, 5)`
on a fresh tree.  Node `2` is red and its right child `3` is red: two
consecutive red links. -/
def redRedState : RBT :=
  ⟨.node 1 (.num 10) BLACK 4
      (.node 0 (.num 5) RED 1 .nil .nil)
      (.node 2 (.num 20) RED 2 .nil
        (.node 3 (.num 30) RED 1 .nil .nil)),
   .nil,
   [("30", [.num 3]), ("20", [.num 2]), ("10", [.num 1]), ("5", [.num 0])]⟩

/-- The state reached by `put(1, 10)` on a fresh tree. -/
def oneTenState : RBT :=
  ⟨.node 1 (.num 10) BLACK 1 .nil .nil, .nil, [("10", [.num 1])]⟩

/-- The state reached by `put(1, 10); put(2, 20)` on a fresh tree. -/
def twoState : RBT :=
  ⟨.node 2 (.num 20) BLACK 2 (.node 1 (.num 10) RED 1 .nil .nil) .nil, .nil,
    [("10", [.num 1]), ("20", [.num 2])]⟩

/-- The state reached by `put('a', 3)` on a fresh tree. -/
def aState : RBT :=
  ⟨.nil, .node "a" (.num 3) BLACK 1 .nil .nil, [("3", [.str "a"])]⟩

/-- The state reached by `put('a', 3); put('b', 4)` on a fresh tree. -/
def abState : RBT :=
  ⟨.nil, .node "b" (.num 4) BLACK 2 (.node "a" (.num 3) RED 1 .nil .nil) .nil,
    [("3", [.str "a"]), ("4", [.str "b"])]⟩

/-- The state reached by `put(1, 0)` on a fresh tree: the (truthy)
key `1` holds the falsy value `0`. -/
def oneZeroState : RBT :=
  ⟨.node 1 (.num 0) BLACK 1 .nil .nil, .nil, [("0", [.num 1])]⟩

/-- The state reached by `put('a', 1)` on a fresh tree. -/
def aOneState : RBT :=
  ⟨.nil, .node "a" (.num 1) BLACK 1 .nil .nil, [("1", [.str "a"])]⟩

/-- The state reached by `put('a', 1); put('a', 2)` on a fresh tree:
one node for key `'a'` holding `2`, while the inverted index still
lists `'a'` under the overwritten value `1`. -/
def aOverwriteState : RBT :=
  ⟨.nil, .node "a" (.num 2) BLACK 1 .nil .nil,
    [("1", [.str "a"]), ("2", [.str "a"])]⟩

/-! ### Claim theorems: concrete executions -/

/-- C1: the red-black balance invariant is claimed to hold after any
sequence of `put`/`remove` operations.  It does not: the four puts
`(3,30), (2,20), (1,10), (0,5)` on a fresh tree produce `redRedState`,
whose node `2` is red with a red right child `3` — two consecutive red
links on one path.  (`fixRightLining` tests its later guards on the
pre-rotation alias `node` instead of `fixedNode`, so the colour flip
that the insertion fix-up requires after a right rotation is skipped.) -/
theorem put_sequence_breaks_red_red_invariant :
    applyPuts RBT.init
      [(.num 3, .num 30), (.num 2, .num 20), (.num 1, .num 10), (.num 0, .num 5)]
      = .ok redRedState ∧
    redRedState.numberRoot.redRedFree = false := by
  constructor <;> rfl

/-- C5: `removeString` is claimed to delete the key from the string
tree and leave the numeric tree unchanged.  Instead, on the reachable
state `mixedState` (numeric entry `1 ↦ 10`, string entry `"a" ↦ 20`),
`remove('a')` assigns the recursive delete's result to
`this.numberRoot` (line 306): the numeric tree is wiped out and the
string tree still contains `"a"`. -/
theorem removeString_wipes_numeric_tree :
    applyPuts RBT.init [(.num 1, .num 10), (.str "a", .num 20)] = .ok mixedState ∧
    mixedState.remove (.str "a") =
      .ok (true,
        ⟨.nil, .node "a" (.num 20) BLACK 1 .nil .nil,
          [("10", [.num 1]), ("20", [.str "a"])]⟩) := by
  constructor <;> rfl

/-- C6: the delete path is claimed to replace the subtree with the
result of `moveRedRight` before continuing right.  Line 341 instead
stores the un-called method itself in `h` (`h = this.moveRedRight`),
so the following `removeNode.compareTo(h)` sees `h.key === undefined`
and throws 'Not consistent comparation type'.  Concretely: after
`put(1,10); put(2,20); put(3,30)`, `remove(3)` reaches that branch and
fails with the type-mismatch error instead of removing `3`. -/
theorem remove_hits_unapplied_moveRedRight :
    applyPuts RBT.init [(.num 1, .num 10), (.num 2, .num 20), (.num 3, .num 30)]
      = .ok threeState ∧
    threeState.remove (.num 3) = .error .typeMismatch := by
  constructor <;> rfl

/-- C7: `insert(v)` is claimed to synthesize a key, store `v` under
it, and return `true` exactly when the table grew.  In fact
`insert` calls `this.put({ value: val })`, passing an options object
as the key; `put` routes only `number` and `string` keys, so nothing
is ever stored and `insert` always returns `false` (for non-null `v`,
and throws on `null`).  In particular `insert(5)` on a fresh table
returns `false` and leaves the table empty. -/
theorem insert_never_stores :
    (∀ (st : RBT) (v : JSVal),
      st.insert v = if v = .null then .error .valueNull else .ok (false, st)) ∧
    RBT.init.insert (.num 5) = .ok (false, RBT.init) ∧ RBT.init.size = 0 := by
  refine ⟨fun st v => ?_, rfl, rfl⟩
  by_cases h : v = .null <;>
    simp [RBT.insert, RBT.put, h, Except.bind, bind, pure]

/-- C8 counterexample: removing a key that is not present is claimed
to return `false` without error, but `remove(0)` on the empty table
throws 'Key and value not found' — `constains` calls
`find({ key: 0 })` and `0` fails the truthiness test for presence. -/
theorem remove_missing_zero_raises :
    RBT.init.remove (.num 0) = .error .keyValueNotFound := by rfl

/-- C10 counterexample: the claim quantifies over every key whose
stored value is falsy, but for the (falsy) key `0` holding the falsy
value `0`, `constains(0)` raises 'Key and value not found' instead of
returning `false`. -/
theorem constains_zero_key_raises :
    RBT.init.put (.num 0) (.num 0) = .ok zeroZeroState ∧
    zeroZeroState.constains (.num 0) = .error .keyValueNotFound := by
  constructor <;> rfl

/-- C3 counterexample: `put(0, 5)` stores value `5` under key `0`,
yet `find({ key: 0 })` does not return `5` — it throws 'Key and value
not found', because `obj.key || false` treats the key `0` as absent. -/
theorem roundtrip_fails_for_key_zero :
    RBT.init.put (.num 0) (.num 5) = .ok zeroKeyState ∧
    zeroKeyState.find { key := some (.num 0) } = .error .keyValueNotFound := by
  constructor <;> rfl

/-- C2 counterexample: after `put(1, 10); put(1, 20)` the stored value
of key `1` is `20`, yet `find({ value: 10 })` still returns `[1]` —
the update never removed the stale `(10, 1)` association, so the
reverse index is not the exact set of keys currently holding `10`. -/
theorem reverse_index_keeps_stale_association :
    applyPuts RBT.init [(.num 1, .num 10), (.num 1, .num 20)] = .ok overwriteState ∧
    overwriteState.find { value := some (.num 10) } = .ok (.keys [.num 1]) ∧
    overwriteState.find { key := some (.num 1) } = .ok (.val (.num 20)) := by
  refine ⟨?_, ?_, ?_⟩ <;> rfl

/-- C4 counterexample: `put(1, 10); put(1, 20)` is claimed to remove
key `1` from value `10`'s reverse-index set; instead the bucket for
`"10"` still contains key `1` (while the single tree entry for `1`
holds `20`). -/
theorem overwrite_leaves_old_bucket_entry :
    idxLookup overwriteState.invertedIndex "10" = some [.num 1] ∧
    overwriteState.numberRoot =
      .node 1 (.num 20) BLACK 1 .nil .nil := by
  constructor <;> rfl

/-! ### In-order traversal is preserved by the rebalancing primitives -/

namespace RBTree

variable {K : Type}

theorem inorder_rotateLeft (t : RBTree K) :
    (rotateLeft t).inorder = t.inorder := by
  cases t with
  | nil => rfl
  | node k v c s l r =>
    cases r with
    | nil => rfl
    | node xk xv xc xs xl xr => simp [rotateLeft, inorder]

theorem inorder_rotateRight (t : RBTree K) :
    (rotateRight t).inorder = t.inorder := by
  cases t with
  | nil => rfl
  | node k v c s l r =>
    cases l with
    | nil => rfl
    | node xk xv xc xs xl xr => simp [rotateRight, inorder]

theorem inorder_negChild (t : RBTree K) : (negChild t).inorder = t.inorder := by
  cases t <;> rfl

theorem inorder_flipColors (t : RBTree K) :
    (flipColors t).inorder = t.inorder := by
  cases t <;> simp [flipColors, inorder, inorder_negChild]

theorem inorder_recomputeSize (t : RBTree K) :
    (recomputeSize t).inorder = t.inorder := by
  cases t <;> rfl

theorem inorder_setColor (t : RBTree K) (c : Bool) :
    (setColor t c).inorder = t.inorder := by
  cases t <;> rfl

theorem inorder_fixRightLining (t : RBTree K) :
    (fixRightLining t).inorder = t.inorder := by
  unfold fixRightLining
  split
  · exact inorder_rotateLeft t
  · split
    · have hrr := inorder_rotateRight t
      dsimp only
      split
      · split
        next k v c s l r heq =>
          rw [heq] at hrr
          simpa [inorder, inorder_flipColors] using hrr
        next heq => rw [heq] at hrr; simpa [inorder] using hrr
      · exact inorder_rotateRight t
    · split
      · exact inorder_flipColors t
      · rfl

theorem inorder_balance (t : RBTree K) : (balance t).inorder = t.inorder := by
  unfold balance
  simp only [inorder_recomputeSize]
  split <;> split <;> split <;>
    simp [inorder_flipColors, inorder_rotateLeft, inorder_rotateRight]

end RBTree

/-! ### The inverted index side of `putRecv` -/

theorem mem_bucketAdd_self (b : Bucket) (m : JSVal) : m ∈ bucketAdd b m := by
  unfold bucketAdd
  by_cases h : m ∈ b <;> simp [h]

theorem mem_bucketAdd_of_mem (b : Bucket) (m m2 : JSVal) (h : m ∈ b) :
    m ∈ bucketAdd b m2 := by
  unfold bucketAdd
  by_cases h2 : m2 ∈ b <;> simp [h2, h]

theorem bucketAdd_idem (b : Bucket) (m : JSVal) :
    bucketAdd (bucketAdd b m) m = bucketAdd b m := by
  unfold bucketAdd
  by_cases h : m ∈ b <;> simp [h]

theorem idxAdd_idem (idx : Index) (s : String) (m : JSVal) :
    idxAdd (idxAdd idx s m) s m = idxAdd idx s m := by
  induction idx with
  | nil => simp [idxAdd, bucketAdd]
  | cons hd tl ih =>
    obtain ⟨s2, b⟩ := hd
    by_cases h : s2 = s <;> simp [idxAdd, h, ih, bucketAdd_idem]

theorem idxLookup_idxAdd_self (idx : Index) (s : String) (m : JSVal) :
    ∃ b, idxLookup (idxAdd idx s m) s = some b ∧ m ∈ b := by
  induction idx with
  | nil => exact ⟨[m], by simp [idxAdd, idxLookup]⟩
  | cons hd tl ih =>
    obtain ⟨s2, b⟩ := hd
    by_cases h : s2 = s
    · exact ⟨bucketAdd b m, by simp [idxAdd, idxLookup, h, mem_bucketAdd_self]⟩
    · obtain ⟨b2, hb2, hm⟩ := ih
      exact ⟨b2, by simp [idxAdd, idxLookup, h, hb2, hm]⟩

theorem idxLookup_idxAdd_of_mem (idx : Index) (s : String) (m : JSVal)
    (s2 : String) (m2 : JSVal) (b : Bucket)
    (h : idxLookup idx s = some b) (hm : m ∈ b) :
    ∃ b2, idxLookup (idxAdd idx s2 m2) s = some b2 ∧ m ∈ b2 := by
  induction idx with
  | nil => simp [idxLookup] at h
  | cons hd tl ih =>
    obtain ⟨s3, b3⟩ := hd
    by_cases h3 : s3 = s
    · subst h3
      have hb : b3 = b := by simpa [idxLookup] using h
      by_cases h2 : s3 = s2
      · refine ⟨bucketAdd b3 m2, ?_, ?_⟩
        · simp [idxAdd, h2, idxLookup]
        · exact mem_bucketAdd_of_mem _ _ _ (by rw [hb]; exact hm)
      · exact ⟨b3, by simp [idxAdd, h2, idxLookup], by rw [hb]; exact hm⟩
    · simp only [idxLookup, if_neg h3] at h
      by_cases h2 : s3 = s2
      · exact ⟨b, by simp [idxAdd, h2, idxLookup, h2 ▸ h3, h, hm]⟩
      · obtain ⟨b2, hb2, hmb2⟩ := ih h
        exact ⟨b2, by simp [idxAdd, h2, idxLookup, h3, hb2, hmb2]⟩

theorem putRecv_fst {K : Type} (cmp : K → K → Int) (inj : K → JSVal)
    (t : RBTree K) (idx : Index) (k : K) (v : JSVal) :
    (RBTree.putRecv cmp inj t idx k v).1 = RBTree.treePut cmp t k v := by
  induction t generalizing idx with
  | nil => rfl
  | node key value color size l r ihl ihr =>
    by_cases h1 : cmp k key < 0
    · simp [RBTree.putRecv, RBTree.treePut, h1, ihl]
    · by_cases h2 : cmp k key > 0 <;>
        simp [RBTree.putRecv, RBTree.treePut, h1, h2, ihr]

theorem putRecv_snd {K : Type} (cmp : K → K → Int) (inj : K → JSVal)
    (t : RBTree K) (idx : Index) (k : K) (v : JSVal) :
    (RBTree.putRecv cmp inj t idx k v).2 = idxAdd idx (jsToString v) (inj k) := by
  induction t generalizing idx with
  | nil => rfl
  | node key value color size l r ihl ihr =>
    by_cases h1 : cmp k key < 0
    · simp [RBTree.putRecv, h1, ihl, idxAdd_idem]
    · by_cases h2 : cmp k key > 0 <;>
        simp [RBTree.putRecv, h1, h2, ihr, idxAdd_idem]

/-! ### Laws of the comparison functions -/

theorem cmpOk_measCmp {K : Type} (m : K → Int) : CmpOk (measCmp m) := by
  constructor
  · intro a; simp [measCmp, numCompare]
  · intro a b; unfold measCmp numCompare; split_ifs <;> omega
  · intro a b c h1 h2
    unfold measCmp numCompare at *
    split_ifs at * <;> omega
  · intro a b c h
    unfold measCmp numCompare at *
    split_ifs at * <;> omega
  · intro a b c h
    unfold measCmp numCompare at *
    split_ifs at * <;> omega

theorem cmpOk_numCompare : CmpOk numCompare := cmpOk_measCmp id

theorem CmpOk.gt_iff {K : Type} {cmp : K → K → Int} (L : CmpOk cmp) (a b : K) :
    0 < cmp a b ↔ cmp b a < 0 := by
  rw [L.neg a b]; omega

theorem CmpOk.zero_symm {K : Type} {cmp : K → K → Int} (L : CmpOk cmp)
    {a b : K} (h : cmp a b = 0) : cmp b a = 0 := by
  rw [L.neg a b]; omega

theorem CmpOk.zz_trans {K : Type} {cmp : K → K → Int} (L : CmpOk cmp)
    {a b c : K} (h1 : cmp a b = 0) (h2 : cmp b c = 0) : cmp a c = 0 := by
  rw [← L.eq_right a h2]; exact h1

theorem CmpOk.lt_of_lt_of_eq {K : Type} {cmp : K → K → Int} (L : CmpOk cmp)
    {a b c : K} (h1 : cmp a b < 0) (h2 : cmp b c = 0) : cmp a c < 0 := by
  rw [← L.eq_right a h2]; exact h1

theorem CmpOk.lt_of_eq_of_lt {K : Type} {cmp : K → K → Int} (L : CmpOk cmp)
    {a b c : K} (h1 : cmp a b = 0) (h2 : cmp b c < 0) : cmp a c < 0 := by
  rw [L.eq_left c h1]; exact h2

/-! ### `listInsert`, `firstA`, `countEq` -/

theorem listInsert_append_lt {K : Type} (cmp : K → K → Int)
    (xs ys : List (K × JSVal)) (key : K) (w : JSVal) (k : K) (v : JSVal)
    (h : cmp k key < 0) :
    listInsert cmp (xs ++ (key, w) :: ys) k v =
      listInsert cmp xs k v ++ (key, w) :: ys := by
  induction xs with
  | nil => simp [listInsert, h]
  | cons hd tl ih =>
    obtain ⟨x, w2⟩ := hd
    by_cases c1 : cmp k x < 0
    · simp [listInsert, c1]
    · by_cases c2 : cmp k x > 0 <;> simp [listInsert, c1, c2, ih]

theorem listInsert_append_gt {K : Type} (cmp : K → K → Int)
    (xs ys : List (K × JSVal)) (key : K) (w : JSVal) (k : K) (v : JSVal)
    (hxs : ∀ p ∈ xs, 0 < cmp k p.1) (h : 0 < cmp k key) :
    listInsert cmp (xs ++ (key, w) :: ys) k v =
      xs ++ (key, w) :: listInsert cmp ys k v := by
  induction xs with
  | nil => simp [listInsert, h, Int.not_lt.mpr (Int.le_of_lt h)]
  | cons hd tl ih =>
    obtain ⟨x, w2⟩ := hd
    have hx := hxs (x, w2) (by simp)
    simp only [List.cons_append, listInsert,
      if_neg (Int.not_lt.mpr (Int.le_of_lt hx)), if_pos hx]
    simp [ih (fun p hp => hxs p (by simp [hp]))]

theorem listInsert_append_eq {K : Type} (cmp : K → K → Int)
    (xs ys : List (K × JSVal)) (key : K) (w : JSVal) (k : K) (v : JSVal)
    (hxs : ∀ p ∈ xs, 0 < cmp k p.1) (h : cmp k key = 0) :
    listInsert cmp (xs ++ (key, w) :: ys) k v = xs ++ (key, v) :: ys := by
  induction xs with
  | nil => simp [listInsert, h]
  | cons hd tl ih =>
    obtain ⟨x, w2⟩ := hd
    have hx := hxs (x, w2) (by simp)
    simp only [List.cons_append, listInsert,
      if_neg (Int.not_lt.mpr (Int.le_of_lt hx)), if_pos hx]
    simp [ih (fun p hp => hxs p (by simp [hp]))]

theorem keys_listInsert {K : Type} (cmp : K → K → Int)
    (l : List (K × JSVal)) (k : K) (v : JSVal) :
    ∀ q ∈ listInsert cmp l k v, q.1 = k ∨ q.1 ∈ l.map Prod.fst := by
  induction l with
  | nil => simp [listInsert]
  | cons hd tl ih =>
    obtain ⟨x, w⟩ := hd
    intro q hq
    by_cases c1 : cmp k x < 0
    · simp only [listInsert, if_pos c1, List.mem_cons] at hq
      rcases hq with h | h | h
      · left; simp [h]
      · right; simp [h]
      · right
        simp only [List.map_cons, List.mem_cons]
        right
        exact List.mem_map_of_mem Prod.fst h
    · by_cases c2 : cmp k x > 0
      · simp only [listInsert, if_neg c1, if_pos c2, List.mem_cons] at hq
        rcases hq with h | h
        · right; simp [h]
        · rcases ih q h with h2 | h2
          · left; exact h2
          · right
            simp only [List.map_cons, List.mem_cons]
            right; exact h2
      · simp only [listInsert, if_neg c1, if_neg c2, List.mem_cons] at hq
        rcases hq with h | h
        · right; simp [h]
        · right
          simp only [List.map_cons, List.mem_cons]
          right
          exact List.mem_map_of_mem Prod.fst h

theorem sortedL_listInsert {K : Type} {cmp : K → K → Int} (L : CmpOk cmp)
    (l : List (K × JSVal)) (k : K) (v : JSVal) (hs : SortedL cmp l) :
    SortedL cmp (listInsert cmp l k v) := by
  induction l with
  | nil => simp [listInsert, SortedL]
  | cons hd tl ih =>
    obtain ⟨x, w⟩ := hd
    rw [SortedL, List.pairwise_cons] at hs
    obtain ⟨hx, htl⟩ := hs
    by_cases c1 : cmp k x < 0
    · rw [SortedL]
      simp only [listInsert, if_pos c1]
      refine List.Pairwise.cons ?_ (List.Pairwise.cons hx htl)
      intro q hq
      rcases List.mem_cons.mp hq with h | h
      · simp [h, c1]
      · exact L.lt_trans c1 (hx q h)
    · by_cases c2 : cmp k x > 0
      · rw [SortedL]
        simp only [listInsert, if_neg c1, if_pos c2]
        refine List.Pairwise.cons ?_ (ih htl)
        intro q hq
        rcases keys_listInsert cmp tl k v q hq with h | h
        · rw [h]; exact (L.gt_iff k x).mp c2
        · simp only [List.mem_map] at h
          obtain ⟨p, hp, hpq⟩ := h
          rw [← hpq]; exact hx p hp
      · rw [SortedL]
        simp only [listInsert, if_neg c1, if_neg c2]
        exact List.Pairwise.cons hx htl

theorem firstA_listInsert_self {K : Type} {cmp : K → K → Int} (L : CmpOk cmp)
    (l : List (K × JSVal)) (k : K) (v : JSVal) :
    firstA cmp (listInsert cmp l k v) k = some v := by
  induction l with
  | nil => simp [listInsert, firstA, L.refl]
  | cons hd tl ih =>
    obtain ⟨x, w⟩ := hd
    by_cases c1 : cmp k x < 0
    · simp [listInsert, c1, firstA, L.refl]
    · by_cases c2 : cmp k x > 0
      · have : cmp k x ≠ 0 := by omega
        simp [listInsert, c1, c2, firstA, this, ih]
      · have c3 : cmp k x = 0 := by omega
        simp [listInsert, c1, c2, firstA, c3]

theorem firstA_listInsert_other {K : Type} {cmp : K → K → Int} (L : CmpOk cmp)
    (l : List (K × JSVal)) (k : K) (v : JSVal) (k0 : K) (h : cmp k0 k ≠ 0) :
    firstA cmp (listInsert cmp l k v) k0 = firstA cmp l k0 := by
  induction l with
  | nil => simp [listInsert, firstA, h]
  | cons hd tl ih =>
    obtain ⟨x, w⟩ := hd
    by_cases c1 : cmp k x < 0
    · simp [listInsert, c1, firstA, h]
    · by_cases c2 : cmp k x > 0
      · simp only [listInsert, if_neg c1, if_pos c2, firstA]
        by_cases c4 : cmp k0 x = 0 <;> simp [c4, ih]
      · have c3 : cmp k x = 0 := by omega
        have c4 : cmp k0 x ≠ 0 := fun hc => h (L.zz_trans hc (L.zero_symm c3))
        simp [listInsert, c1, c2, firstA, c4]

theorem countEq_nil_of {K : Type} (cmp : K → K → Int)
    (l : List (K × JSVal)) (k : K) (h : ∀ p ∈ l, cmp k p.1 ≠ 0) :
    countEq cmp l k = 0 := by
  unfold countEq
  rw [List.length_eq_zero, List.filter_eq_nil_iff]
  intro p hp
  simpa using h p hp

theorem countEq_cons {K : Type} (cmp : K → K → Int)
    (x : K) (w : JSVal) (tl : List (K × JSVal)) (k : K) :
    countEq cmp ((x, w) :: tl) k =
      (if cmp k x = 0 then 1 else 0) + countEq cmp tl k := by
  unfold countEq
  by_cases h : cmp k x = 0 <;> simp [List.filter_cons, h, Nat.add_comm]

theorem countEq_listInsert_self {K : Type} {cmp : K → K → Int} (L : CmpOk cmp)
    (l : List (K × JSVal)) (k : K) (v : JSVal) (hs : SortedL cmp l) :
    countEq cmp (listInsert cmp l k v) k = 1 := by
  induction l with
  | nil => simp [listInsert, countEq, L.refl]
  | cons hd tl ih =>
    obtain ⟨x, w⟩ := hd
    rw [SortedL, List.pairwise_cons] at hs
    obtain ⟨hx, htl⟩ := hs
    by_cases c1 : cmp k x < 0
    · have h0 : countEq cmp ((x, w) :: tl) k = 0 := by
        refine countEq_nil_of cmp _ k ?_
        intro p hp
        rcases List.mem_cons.mp hp with h | h
        · have : p.1 = x := by simp [h]
          rw [this]; omega
        · have := L.lt_trans c1 (hx p h)
          omega
      simp only [listInsert, if_pos c1, countEq_cons, if_pos (L.refl k)]
      rw [countEq_cons] at h0
      omega
    · by_cases c2 : cmp k x > 0
      · have hne : cmp k x ≠ 0 := by omega
        simp only [listInsert, if_neg c1, if_pos c2, countEq_cons, if_neg hne]
        simpa using ih htl
      · have c3 : cmp k x = 0 := by omega
        have h0 : countEq cmp tl k = 0 := by
          refine countEq_nil_of cmp _ k ?_
          intro p hp
          have := L.lt_of_eq_of_lt c3 (hx p hp)
          omega
        simp only [listInsert, if_neg c1, if_neg c2, countEq_cons, if_pos c3, h0]

/-! ### `treePut` and `findIterKey` through the in-order list -/

theorem sortedT_node {K : Type} {cmp : K → K → Int} {key : K} {w : JSVal}
    {c : Bool} {s : Nat} {l r : RBTree K}
    (hs : SortedT cmp (.node key w c s l r)) :
    SortedT cmp l ∧ SortedT cmp r ∧
    (∀ p ∈ l.inorder, cmp p.1 key < 0) ∧
    (∀ q ∈ r.inorder, cmp key q.1 < 0) := by
  unfold SortedT SortedL RBTree.inorder at hs
  rw [List.pairwise_append] at hs
  obtain ⟨h1, h2, h3⟩ := hs
  rw [List.pairwise_cons] at h2
  exact ⟨h1, h2.2, fun p hp => h3 p hp (key, w) (by simp),
    fun q hq => h2.1 q hq⟩

theorem inorder_treePut {K : Type} {cmp : K → K → Int} (L : CmpOk cmp)
    (t : RBTree K) (k : K) (v : JSVal) (hs : SortedT cmp t) :
    (RBTree.treePut cmp t k v).inorder = listInsert cmp t.inorder k v := by
  induction t with
  | nil => simp [RBTree.treePut, RBTree.inorder, listInsert]
  | node key w c s l r ihl ihr =>
    obtain ⟨hsl, hsr, hlk, hkr⟩ := sortedT_node hs
    by_cases c1 : cmp k key < 0
    · simp only [RBTree.treePut, if_pos c1, RBTree.inorder_recomputeSize,
        RBTree.inorder_fixRightLining, RBTree.inorder]
      rw [ihl hsl, listInsert_append_lt cmp _ _ _ _ _ _ c1]
    · by_cases c2 : cmp k key > 0
      · have hxs : ∀ p ∈ l.inorder, 0 < cmp k p.1 := by
          intro p hp
          have h1 := hlk p hp
          have h2 : cmp key k < 0 := (L.gt_iff k key).mp c2
          exact (L.gt_iff k p.1).mpr (L.lt_trans h1 h2)
        simp only [RBTree.treePut, if_neg c1, if_pos c2,
          RBTree.inorder_recomputeSize, RBTree.inorder_fixRightLining,
          RBTree.inorder]
        rw [ihr hsr, listInsert_append_gt cmp _ _ _ _ _ _ hxs c2]
      · have c3 : cmp k key = 0 := by omega
        have hxs : ∀ p ∈ l.inorder, 0 < cmp k p.1 := by
          intro p hp
          exact (L.gt_iff k p.1).mpr (L.lt_of_lt_of_eq (hlk p hp) (L.zero_symm c3))
        simp only [RBTree.treePut, if_neg c1, if_neg c2,
          RBTree.inorder_recomputeSize, RBTree.inorder_fixRightLining,
          RBTree.inorder]
        rw [listInsert_append_eq cmp _ _ _ _ _ _ hxs c3]

theorem sortedT_treePut {K : Type} {cmp : K → K → Int} (L : CmpOk cmp)
    (t : RBTree K) (k : K) (v : JSVal) (hs : SortedT cmp t) :
    SortedT cmp (RBTree.treePut cmp t k v) := by
  rw [SortedT, inorder_treePut L t k v hs]
  exact sortedL_listInsert L _ _ _ hs

theorem firstA_none_of {K : Type} (cmp : K → K → Int)
    (l : List (K × JSVal)) (k : K) (h : ∀ p ∈ l, cmp k p.1 ≠ 0) :
    firstA cmp l k = none := by
  induction l with
  | nil => rfl
  | cons hd tl ih =>
    obtain ⟨x, w⟩ := hd
    have hx : cmp k x ≠ 0 := by simpa using h (x, w) (by simp)
    simp only [firstA, if_neg hx]
    exact ih (fun p hp => h p (by simp [hp]))

theorem firstA_append {K : Type} (cmp : K → K → Int)
    (xs ys : List (K × JSVal)) (k : K) :
    firstA cmp (xs ++ ys) k =
      ((firstA cmp xs k).rec (firstA cmp ys k) (fun w => some w) : Option JSVal) := by
  induction xs with
  | nil => simp [firstA]
  | cons hd tl ih =>
    obtain ⟨x, w⟩ := hd
    by_cases hx : cmp k x = 0 <;> simp [firstA, hx, ih]

theorem findIterKey_eq_firstA {K : Type} {cmp : K → K → Int} (L : CmpOk cmp)
    (t : RBTree K) (k : K) (hs : SortedT cmp t) :
    RBTree.findIterKey cmp t k = (firstA cmp t.inorder k).getD .null := by
  induction t with
  | nil => rfl
  | node key w c s l r ihl ihr =>
    obtain ⟨hsl, hsr, hlk, hkr⟩ := sortedT_node hs
    by_cases c1 : cmp k key < 0
    · have hrest : firstA cmp ((key, w) :: r.inorder) k = none := by
        refine firstA_none_of cmp _ k ?_
        intro p hp
        rcases List.mem_cons.mp hp with h | h
        · have : p.1 = key := by simp [h]
          rw [this]; omega
        · have := L.lt_trans c1 (hkr p h)
          omega
      simp only [RBTree.findIterKey, if_pos c1, RBTree.inorder,
        firstA_append, hrest]
      rw [ihl hsl]
      cases firstA cmp l.inorder k <;> rfl
    · by_cases c2 : cmp k key > 0
      · have hxs : ∀ p ∈ l.inorder, cmp k p.1 ≠ 0 := by
          intro p hp
          have h2 : cmp key k < 0 := (L.gt_iff k key).mp c2
          have := (L.gt_iff k p.1).mpr (L.lt_trans (hlk p hp) h2)
          omega
        have hl0 : firstA cmp l.inorder k = none := firstA_none_of cmp _ k hxs
        have hne : cmp k key ≠ 0 := by omega
        simp only [RBTree.findIterKey, if_neg c1, if_pos c2, RBTree.inorder,
          firstA_append, hl0, firstA, if_neg hne]
        exact ihr hsr
      · have c3 : cmp k key = 0 := by omega
        have hxs : ∀ p ∈ l.inorder, cmp k p.1 ≠ 0 := by
          intro p hp
          have := (L.gt_iff k p.1).mpr
            (L.lt_of_lt_of_eq (hlk p hp) (L.zero_symm c3))
          omega
        have hl0 : firstA cmp l.inorder k = none := firstA_none_of cmp _ k hxs
        simp [RBTree.findIterKey, c1, c2, c3, RBTree.inorder, firstA_append,
          hl0, firstA]

theorem findIterKey_null_of_absent {K : Type} (cmp : K → K → Int)
    (t : RBTree K) (k : K) (h : hasKeyB cmp t k = false) :
    RBTree.findIterKey cmp t k = .null := by
  induction t with
  | nil => rfl
  | node key w c s l r ihl ihr =>
    simp only [hasKeyB, Bool.or_eq_false_iff, decide_eq_false_iff_not] at h
    obtain ⟨⟨h1, h2⟩, h3⟩ := h
    by_cases c1 : cmp k key < 0
    · simp [RBTree.findIterKey, c1, ihl h2]
    · by_cases c2 : cmp k key > 0
      · simp [RBTree.findIterKey, c1, c2, ihr h3]
      · exact absurd (by omega) h1

theorem hasKeyB_setColor {K : Type} (cmp : K → K → Int)
    (t : RBTree K) (c : Bool) (k : K) :
    hasKeyB cmp (t.setColor c) k = hasKeyB cmp t k := by
  cases t <;> rfl

theorem mem_inorder_treePut_self {K : Type} {cmp : K → K → Int} (L : CmpOk cmp)
    (t : RBTree K) (k : K) (v : JSVal) :
    ∃ p ∈ (RBTree.treePut cmp t k v).inorder, cmp k p.1 = 0 := by
  induction t with
  | nil => exact ⟨(k, v), by simp [RBTree.treePut, RBTree.inorder], L.refl k⟩
  | node key w c s l r ihl ihr =>
    by_cases c1 : cmp k key < 0
    · obtain ⟨p, hp, hp0⟩ := ihl
      refine ⟨p, ?_, hp0⟩
      simp only [RBTree.treePut, if_pos c1, RBTree.inorder_recomputeSize,
        RBTree.inorder_fixRightLining, RBTree.inorder]
      simp [hp]
    · by_cases c2 : cmp k key > 0
      · obtain ⟨p, hp, hp0⟩ := ihr
        refine ⟨p, ?_, hp0⟩
        simp only [RBTree.treePut, if_neg c1, if_pos c2,
          RBTree.inorder_recomputeSize, RBTree.inorder_fixRightLining,
          RBTree.inorder]
        simp [hp]
      · have c3 : cmp k key = 0 := by omega
        refine ⟨(key, v), ?_, c3⟩
        simp only [RBTree.treePut, if_neg c1, if_neg c2,
          RBTree.inorder_recomputeSize, RBTree.inorder_fixRightLining,
          RBTree.inorder]
        simp

theorem hasKeyB_iff_inorder {K : Type} (cmp : K → K → Int) (t : RBTree K) (k : K) :
    hasKeyB cmp t k = true ↔ ∃ p ∈ t.inorder, cmp k p.1 = 0 := by
  induction t with
  | nil => simp [hasKeyB, RBTree.inorder]
  | node key w c s l r ihl ihr =>
    simp only [hasKeyB, Bool.or_eq_true, decide_eq_true_eq, ihl, ihr,
      RBTree.inorder, List.mem_append, List.mem_cons]
    constructor
    · rintro ((h | ⟨p, hp, h0⟩) | ⟨p, hp, h0⟩)
      · exact ⟨(key, w), Or.inr (Or.inl rfl), h⟩
      · exact ⟨p, Or.inl hp, h0⟩
      · exact ⟨p, Or.inr (Or.inr hp), h0⟩
    · rintro ⟨p, (hp | hp | hp), h0⟩
      · exact Or.inl (Or.inr ⟨p, hp, h0⟩)
      · subst hp; exact Or.inl (Or.inl h0)
      · exact Or.inr ⟨p, hp, h0⟩

theorem hasKeyB_treePut_self {K : Type} {cmp : K → K → Int} (L : CmpOk cmp)
    (t : RBTree K) (k : K) (v : JSVal) :
    hasKeyB cmp (RBTree.treePut cmp t k v) k = true :=
  (hasKeyB_iff_inorder cmp _ k).mpr (mem_inorder_treePut_self L t k v)

theorem keys_treePut {K : Type} (cmp : K → K → Int)
    (t : RBTree K) (k : K) (v : JSVal) :
    ∀ p ∈ (RBTree.treePut cmp t k v).inorder,
      p.1 = k ∨ p.1 ∈ t.inorder.map Prod.fst := by
  induction t with
  | nil => simp [RBTree.treePut, RBTree.inorder]
  | node key w c s l r ihl ihr =>
    intro p hp
    by_cases c1 : cmp k key < 0
    · simp only [RBTree.treePut, if_pos c1, RBTree.inorder_recomputeSize,
        RBTree.inorder_fixRightLining, RBTree.inorder, List.mem_append,
        List.mem_cons] at hp
      rcases hp with hp | hp | hp
      · rcases ihl p hp with h | h
        · exact Or.inl h
        · right; simp only [RBTree.inorder, List.map_append, List.mem_append]
          exact Or.inl h
      · right; simp [RBTree.inorder, hp]
      · right
        simp only [RBTree.inorder, List.map_append, List.map_cons,
          List.mem_append, List.mem_cons]
        exact Or.inr (Or.inr (List.mem_map_of_mem Prod.fst hp))
    · by_cases c2 : cmp k key > 0
      · simp only [RBTree.treePut, if_neg c1, if_pos c2,
          RBTree.inorder_recomputeSize, RBTree.inorder_fixRightLining,
          RBTree.inorder, List.mem_append, List.mem_cons] at hp
        rcases hp with hp | hp | hp
        · right
          simp only [RBTree.inorder, List.map_append, List.mem_append]
          exact Or.inl (List.mem_map_of_mem Prod.fst hp)
        · right; simp [RBTree.inorder, hp]
        · rcases ihr p hp with h | h
          · exact Or.inl h
          · right
            simp only [RBTree.inorder, List.map_append, List.map_cons,
              List.mem_append, List.mem_cons]
            exact Or.inr (Or.inr h)
      · simp only [RBTree.treePut, if_neg c1, if_neg c2,
          RBTree.inorder_recomputeSize, RBTree.inorder_fixRightLining,
          RBTree.inorder, List.mem_append, List.mem_cons] at hp
        rcases hp with hp | hp | hp
        · right
          simp only [RBTree.inorder, List.map_append, List.mem_append]
          exact Or.inl (List.mem_map_of_mem Prod.fst hp)
        · right; simp [RBTree.inorder, hp]
        · right
          simp only [RBTree.inorder, List.map_append, List.map_cons,
            List.mem_append, List.mem_cons]
          exact Or.inr (Or.inr (List.mem_map_of_mem Prod.fst hp))

/-! ### `strCompare` agrees with the total surrogate measure on
nonempty strings -/

theorem string_eq_empty_of_data (s : String) (h : s.data = []) : s = "" := by
  cases s with
  | mk data => simp at h; subst h; rfl

theorem decodeStrKey_of_ne (s : String) (h : ¬s = "") :
    decodeStrKey s = some (strMeasure s) := by
  rcases hd : s.data with _ | ⟨c, rest⟩
  · exact absurd (string_eq_empty_of_data s hd) h
  · unfold strMeasure decodeStrKey
    rw [hd]

theorem strCompare_empty_left (b : String) : strCompare "" b = 0 := by
  unfold strCompare decodeStrKey
  cases hb : b.data <;> rfl

theorem strCompare_eq_measCmp (a b : String) (ha : ¬a = "") (hb : ¬b = "") :
    strCompare a b = measCmp strMeasure a b := by
  unfold strCompare measCmp numCompare
  rw [decodeStrKey_of_ne a ha, decodeStrKey_of_ne b hb]

theorem allNE_node {key : String} {w : JSVal} {c : Bool} {s : Nat}
    {l r : RBTree String} (h : allNE (.node key w c s l r)) :
    ¬key = "" ∧ allNE l ∧ allNE r :=
  ⟨h (key, w) (by simp [RBTree.inorder]),
    fun p hp => h p (by simp [RBTree.inorder, hp]),
    fun p hp => h p (by simp [RBTree.inorder, hp])⟩

theorem treePut_strCompare_eq (t : RBTree String) (k : String) (v : JSVal)
    (hne : allNE t) (hk : ¬k = "") :
    RBTree.treePut strCompare t k v =
      RBTree.treePut (measCmp strMeasure) t k v := by
  induction t with
  | nil => rfl
  | node key w c s l r ihl ihr =>
    obtain ⟨hkey, hl, hr⟩ := allNE_node hne
    have hcmp : strCompare k key = measCmp strMeasure k key :=
      strCompare_eq_measCmp k key hk hkey
    simp only [RBTree.treePut, hcmp, ihl hl, ihr hr]

theorem findIterKey_strCompare_eq (t : RBTree String) (k : String)
    (hne : allNE t) (hk : ¬k = "") :
    RBTree.findIterKey strCompare t k =
      RBTree.findIterKey (measCmp strMeasure) t k := by
  induction t with
  | nil => rfl
  | node key w c s l r ihl ihr =>
    obtain ⟨hkey, hl, hr⟩ := allNE_node hne
    have hcmp : strCompare k key = measCmp strMeasure k key :=
      strCompare_eq_measCmp k key hk hkey
    simp only [RBTree.findIterKey, hcmp, ihl hl, ihr hr]

theorem allNE_treePut (cmp : String → String → Int) (t : RBTree String)
    (k : String) (v : JSVal) (hne : allNE t) (hk : ¬k = "") :
    allNE (RBTree.treePut cmp t k v) := by
  intro p hp
  rcases keys_treePut cmp t k v p hp with h | h
  · rw [h]; exact hk
  · simp only [List.mem_map] at h
    obtain ⟨q, hq, hqp⟩ := h
    rw [← hqp]
    exact hne q hq

theorem allNE_setColor (t : RBTree String) (c : Bool) (h : allNE t) :
    allNE (t.setColor c) := by
  intro p hp
  rw [RBTree.inorder_setColor] at hp
  exact h p hp

theorem sortedT_setColor {K : Type} {cmp : K → K → Int} (t : RBTree K)
    (c : Bool) (h : SortedT cmp t) : SortedT cmp (t.setColor c) := by
  rw [SortedT, RBTree.inorder_setColor]
  exact h

/-! ### Unfolding lemmas for the public operations -/

theorem put_num (st : RBT) (n : Int) (v : JSVal) :
    st.put (.num n) v = .ok { st with
      numberRoot := (RBTree.treePut numCompare st.numberRoot n v).setColor BLACK,
      invertedIndex := idxAdd st.invertedIndex (jsToString v) (.num n) } := by
  simp [RBT.put, putRecv_fst, putRecv_snd, injNum]

theorem put_str (st : RBT) (s : String) (v : JSVal) (h : ¬s.length > 8) :
    st.put (.str s) v = .ok { st with
      stringRoot := (RBTree.treePut strCompare st.stringRoot s v).setColor BLACK,
      invertedIndex := idxAdd st.invertedIndex (jsToString v) (.str s) } := by
  simp [RBT.put, h, putRecv_fst, putRecv_snd, injStr]

theorem find_key_num (st : RBT) (n : Int) (h : n ≠ 0) :
    st.find { key := some (.num n) } =
      .ok (.val (RBTree.findIterKey numCompare st.numberRoot n)) := by
  simp [RBT.find, truthy, h]

theorem find_key_str (st : RBT) (s : String) (h : ¬s = "") :
    st.find { key := some (.str s) } =
      .ok (.val (RBTree.findIterKey strCompare st.stringRoot s)) := by
  have hie : s.isEmpty = false := by
    cases hb : s.isEmpty with
    | false => rfl
    | true => exact absurd ((String.isEmpty_iff s).mp hb) h
  simp [RBT.find, truthy, hie]

theorem strCompare_empty_right (a : String) : strCompare a "" = 0 := by
  unfold strCompare decodeStrKey
  cases ha : a.data <;> rfl

theorem numCompare_ne_zero {a b : Int} (h : a ≠ b) : numCompare a b ≠ 0 := by
  unfold numCompare
  split_ifs <;> omega

/-! ### Invariants preserved along a sequence of puts -/

theorem applyPuts_num_invariant (k : Int) (v : JSVal) :
    ∀ (ops : List (JSVal × JSVal)) (st st2 : RBT),
      applyPuts st ops = .ok st2 →
      (∀ p ∈ ops, ∀ n : Int, p.1 = .num n → n ≠ k) →
      SortedT numCompare st.numberRoot →
      firstA numCompare st.numberRoot.inorder k = some v →
      SortedT numCompare st2.numberRoot ∧
        firstA numCompare st2.numberRoot.inorder k = some v := by
  intro ops
  induction ops with
  | nil =>
    intro st st2 h _ hs hf
    simp only [applyPuts] at h
    cases h
    exact ⟨hs, hf⟩
  | cons hd rest ih =>
    obtain ⟨key, w⟩ := hd
    intro st st2 h hops hs hf
    rw [applyPuts] at h
    cases hput : st.put key w with
    | error e => rw [hput] at h; simp [Bind.bind, Except.bind] at h
    | ok st1 =>
      rw [hput] at h
      simp only [Bind.bind, Except.bind] at h
      have htail : ∀ p ∈ rest, ∀ n : Int, p.1 = .num n → n ≠ k :=
        fun p hp => hops p (by simp [hp])
      cases key with
      | num m =>
        have hm : m ≠ k := hops (JSVal.num m, w) (by simp) m rfl
        rw [put_num] at hput
        cases hput
        refine ih _ st2 h htail ?_ ?_
        · exact sortedT_setColor _ _ (sortedT_treePut cmpOk_numCompare _ _ _ hs)
        · show firstA numCompare
            ((RBTree.treePut numCompare st.numberRoot m w).setColor BLACK).inorder
              k = some v
          rw [RBTree.inorder_setColor,
            inorder_treePut cmpOk_numCompare _ _ _ hs,
            firstA_listInsert_other cmpOk_numCompare _ _ _ _
              (numCompare_ne_zero (fun he => hm he.symm))]
          exact hf
      | str s2 =>
        by_cases hlen : s2.length > 8
        · simp [RBT.put, hlen] at hput
        · rw [put_str st s2 w hlen] at hput
          cases hput
          exact ih _ st2 h htail hs hf
      | bool b =>
        simp only [RBT.put] at hput
        cases hput
        exact ih _ st2 h htail hs hf
      | null =>
        simp only [RBT.put] at hput
        cases hput
        exact ih _ st2 h htail hs hf
      | obj =>
        simp only [RBT.put] at hput
        cases hput
        exact ih _ st2 h htail hs hf

theorem applyPuts_str_invariant (k : String) (v : JSVal) :
    ∀ (ops : List (JSVal × JSVal)) (st st2 : RBT),
      applyPuts st ops = .ok st2 →
      (∀ p ∈ ops, ∀ s2 : String, p.1 = .str s2 → strCompare s2 k ≠ 0) →
      allNE st.stringRoot →
      SortedT (measCmp strMeasure) st.stringRoot →
      firstA (measCmp strMeasure) st.stringRoot.inorder k = some v →
      allNE st2.stringRoot ∧
        SortedT (measCmp strMeasure) st2.stringRoot ∧
        firstA (measCmp strMeasure) st2.stringRoot.inorder k = some v := by
  intro ops
  induction ops with
  | nil =>
    intro st st2 h _ hne hs hf
    simp only [applyPuts] at h
    cases h
    exact ⟨hne, hs, hf⟩
  | cons hd rest ih =>
    obtain ⟨key, w⟩ := hd
    intro st st2 h hops hne hs hf
    rw [applyPuts] at h
    cases hput : st.put key w with
    | error e => rw [hput] at h; simp [Bind.bind, Except.bind] at h
    | ok st1 =>
      rw [hput] at h
      simp only [Bind.bind, Except.bind] at h
      have htail : ∀ p ∈ rest, ∀ s2 : String, p.1 = .str s2 → strCompare s2 k ≠ 0 :=
        fun p hp => hops p (by simp [hp])
      cases key with
      | str s2 =>
        have hcmp : strCompare s2 k ≠ 0 := hops (JSVal.str s2, w) (by simp) s2 rfl
        have hs2ne : ¬s2 = "" := by
          intro he
          exact hcmp (he ▸ strCompare_empty_left k)
        have hkne : ¬k = "" := by
          intro he
          exact hcmp (he ▸ strCompare_empty_right s2)
        by_cases hlen : s2.length > 8
        · simp [RBT.put, hlen] at hput
        · rw [put_str st s2 w hlen] at hput
          cases hput
          have hbridge : RBTree.treePut strCompare st.stringRoot s2 w =
              RBTree.treePut (measCmp strMeasure) st.stringRoot s2 w :=
            treePut_strCompare_eq _ _ _ hne hs2ne
          have hmeas : measCmp strMeasure k s2 ≠ 0 := by
            have he : strCompare s2 k = measCmp strMeasure s2 k :=
              strCompare_eq_measCmp s2 k hs2ne hkne
            have hne0 : measCmp strMeasure s2 k ≠ 0 := he ▸ hcmp
            have := (cmpOk_measCmp strMeasure).neg s2 k
            omega
          refine ih _ st2 h htail ?_ ?_ ?_
          · show allNE ((RBTree.treePut strCompare st.stringRoot s2 w).setColor BLACK)
            exact allNE_setColor _ _ (allNE_treePut _ _ _ _ hne hs2ne)
          · show SortedT (measCmp strMeasure)
              ((RBTree.treePut strCompare st.stringRoot s2 w).setColor BLACK)
            rw [hbridge]
            exact sortedT_setColor _ _
              (sortedT_treePut (cmpOk_measCmp strMeasure) _ _ _ hs)
          · show firstA (measCmp strMeasure)
              ((RBTree.treePut strCompare st.stringRoot s2 w).setColor BLACK).inorder
                k = some v
            rw [hbridge, RBTree.inorder_setColor,
              inorder_treePut (cmpOk_measCmp strMeasure) _ _ _ hs,
              firstA_listInsert_other (cmpOk_measCmp strMeasure) _ _ _ _ hmeas]
            exact hf
      | num m =>
        rw [put_num] at hput
        cases hput
        exact ih _ st2 h htail hne hs hf
      | bool b =>
        simp only [RBT.put] at hput
        cases hput
        exact ih _ st2 h htail hne hs hf
      | null =>
        simp only [RBT.put] at hput
        cases hput
        exact ih _ st2 h htail hne hs hf
      | obj =>
        simp only [RBT.put] at hput
        cases hput
        exact ih _ st2 h htail hne hs hf

/-! ### Claim theorems: general statements -/

/-- C3 (amended): for every nonzero numeric key and every nonempty
string key of at most 8 characters, `put(k, v)` followed only by puts
of keys the code does not compare equal to `k` makes
`find({ key: k })` return `v` (the claim fails for the falsy keys `0`
and `''`, which `find` refuses to look up). -/
theorem put_then_find_returns_last_value :
    (∀ (st st2 st3 : RBT) (k : Int) (v : JSVal) (ops : List (JSVal × JSVal)),
      SortedT numCompare st.numberRoot → k ≠ 0 →
      st.put (.num k) v = .ok st2 →
      applyPuts st2 ops = .ok st3 →
      (∀ p ∈ ops, ∀ n : Int, p.1 = .num n → n ≠ k) →
      st3.find { key := some (.num k) } = .ok (.val v)) ∧
    (∀ (st st2 st3 : RBT) (s : String) (v : JSVal) (ops : List (JSVal × JSVal)),
      allNE st.stringRoot → SortedT (measCmp strMeasure) st.stringRoot →
      ¬s = "" → ¬s.length > 8 →
      st.put (.str s) v = .ok st2 →
      applyPuts st2 ops = .ok st3 →
      (∀ p ∈ ops, ∀ s2 : String, p.1 = .str s2 → strCompare s2 s ≠ 0) →
      st3.find { key := some (.str s) } = .ok (.val v)) := by
  constructor
  · intro st st2 st3 k v ops hs hk hput hops hother
    rw [put_num] at hput
    cases hput
    have hs2 : SortedT numCompare
        ((RBTree.treePut numCompare st.numberRoot k v).setColor BLACK) :=
      sortedT_setColor _ _ (sortedT_treePut cmpOk_numCompare _ _ _ hs)
    have hf2 : firstA numCompare
        ((RBTree.treePut numCompare st.numberRoot k v).setColor BLACK).inorder
          k = some v := by
      rw [RBTree.inorder_setColor, inorder_treePut cmpOk_numCompare _ _ _ hs]
      exact firstA_listInsert_self cmpOk_numCompare _ _ _
    obtain ⟨hs3, hf3⟩ :=
      applyPuts_num_invariant k v ops _ st3 hops hother hs2 hf2
    rw [find_key_num st3 k hk,
      findIterKey_eq_firstA cmpOk_numCompare _ _ hs3, hf3]
    rfl
  · intro st st2 st3 s v ops hne hs hk hlen hput hops hother
    rw [put_str st s v hlen] at hput
    cases hput
    have hbridge : RBTree.treePut strCompare st.stringRoot s v =
        RBTree.treePut (measCmp strMeasure) st.stringRoot s v :=
      treePut_strCompare_eq _ _ _ hne hk
    have hne2 : allNE ((RBTree.treePut strCompare st.stringRoot s v).setColor BLACK) :=
      allNE_setColor _ _ (allNE_treePut _ _ _ _ hne hk)
    have hs2 : SortedT (measCmp strMeasure)
        ((RBTree.treePut strCompare st.stringRoot s v).setColor BLACK) := by
      rw [hbridge]
      exact sortedT_setColor _ _
        (sortedT_treePut (cmpOk_measCmp strMeasure) _ _ _ hs)
    have hf2 : firstA (measCmp strMeasure)
        ((RBTree.treePut strCompare st.stringRoot s v).setColor BLACK).inorder
          s = some v := by
      rw [hbridge, RBTree.inorder_setColor,
        inorder_treePut (cmpOk_measCmp strMeasure) _ _ _ hs]
      exact firstA_listInsert_self (cmpOk_measCmp strMeasure) _ _ _
    obtain ⟨hne3, hs3, hf3⟩ :=
      applyPuts_str_invariant s v ops _ st3 hops hother hne2 hs2 hf2
    rw [find_key_str st3 s hk, findIterKey_strCompare_eq _ _ hne3 hk,
      findIterKey_eq_firstA (cmpOk_measCmp strMeasure) _ _ hs3, hf3]
    rfl

/-- C3 witness: both halves of the round-trip theorem instantiated —
`put(1,10); put(2,20)` then `find({key: 1})` returns `10`, and
`put('a',3); put('b',4)` then `find({key: 'a'})` returns `3`. -/
theorem put_then_find_returns_last_value_witness :
    twoState.find { key := some (.num 1) } = .ok (.val (.num 10)) ∧
    abState.find { key := some (.str "a") } = .ok (.val (.num 3)) := by
  constructor
  · refine put_then_find_returns_last_value.1 RBT.init oneTenState twoState
      1 (.num 10) [(.num 2, .num 20)] ?_ (by decide) (by rfl) (by rfl) ?_
    · simp [SortedT, SortedL, RBT.init, RBTree.inorder]
    · intro p hp n hn
      simp only [List.mem_singleton] at hp
      subst hp
      simp only [JSVal.num.injEq] at hn
      omega
  · refine put_then_find_returns_last_value.2 RBT.init aState abState
      "a" (.num 3) [(.str "b", .num 4)] ?_ ?_ (by decide) (by decide)
      (by rfl) (by rfl) ?_
    · intro p hp
      simp [RBT.init, RBTree.inorder] at hp
    · simp [SortedT, SortedL, RBT.init, RBTree.inorder]
    · intro p hp s2 hn
      simp only [List.mem_singleton] at hp
      subst hp
      simp only [JSVal.str.injEq] at hn
      subst hn
      decide

theorem countEq_strCompare_eq (l : List (String × JSVal)) (s : String)
    (hl : ∀ p ∈ l, ¬Prod.fst p = "") (hs : ¬s = "") :
    countEq strCompare l s = countEq (measCmp strMeasure) l s := by
  unfold countEq
  congr 1
  apply List.filter_congr
  intro p hp
  rw [strCompare_eq_measCmp s p.1 hs (hl p hp)]

/-- C4 (amended): overwriting a key — numeric, or a nonempty string of
at most 8 characters — leaves exactly one tree entry comparing equal
to it, holding the second value, and adds the key to the second
value's reverse-index set; but the key also stays in the first value's
set (the removal the claim asserts never happens). -/
theorem overwrite_semantics :
    (∀ (st st2 st3 : RBT) (k : Int) (v1 v2 : JSVal),
      SortedT numCompare st.numberRoot → v1 ≠ v2 →
      st.put (.num k) v1 = .ok st2 → st2.put (.num k) v2 = .ok st3 →
      countEq numCompare st3.numberRoot.inorder k = 1 ∧
      RBTree.findIterKey numCompare st3.numberRoot k = v2 ∧
      (∃ b1, idxLookup st3.invertedIndex (jsToString v1) = some b1 ∧ .num k ∈ b1) ∧
      (∃ b2, idxLookup st3.invertedIndex (jsToString v2) = some b2 ∧ .num k ∈ b2)) ∧
    (∀ (st st2 st3 : RBT) (s : String) (v1 v2 : JSVal),
      allNE st.stringRoot → SortedT (measCmp strMeasure) st.stringRoot →
      ¬s = "" → ¬s.length > 8 → v1 ≠ v2 →
      st.put (.str s) v1 = .ok st2 → st2.put (.str s) v2 = .ok st3 →
      countEq strCompare st3.stringRoot.inorder s = 1 ∧
      RBTree.findIterKey strCompare st3.stringRoot s = v2 ∧
      (∃ b1, idxLookup st3.invertedIndex (jsToString v1) = some b1 ∧ .str s ∈ b1) ∧
      (∃ b2, idxLookup st3.invertedIndex (jsToString v2) = some b2 ∧ .str s ∈ b2)) := by
  constructor
  · intro st st2 st3 k v1 v2 hs hne h1 h2
    rw [put_num] at h1
    cases h1
    rw [put_num] at h2
    cases h2
    have hs2 : SortedT numCompare
        ((RBTree.treePut numCompare st.numberRoot k v1).setColor BLACK) :=
      sortedT_setColor _ _ (sortedT_treePut cmpOk_numCompare _ _ _ hs)
    have hio : ((RBTree.treePut numCompare
        ((RBTree.treePut numCompare st.numberRoot k v1).setColor BLACK)
          k v2).setColor BLACK).inorder =
        listInsert numCompare
          (listInsert numCompare st.numberRoot.inorder k v1) k v2 := by
      rw [RBTree.inorder_setColor, inorder_treePut cmpOk_numCompare _ _ _ hs2,
        RBTree.inorder_setColor, inorder_treePut cmpOk_numCompare _ _ _ hs]
    have hsl2 : SortedL numCompare
        (listInsert numCompare st.numberRoot.inorder k v1) :=
      sortedL_listInsert cmpOk_numCompare _ _ _ hs
    refine ⟨?_, ?_, ?_, ?_⟩
    · rw [hio]
      exact countEq_listInsert_self cmpOk_numCompare _ _ _ hsl2
    · have hs3 : SortedT numCompare
          ((RBTree.treePut numCompare
            ((RBTree.treePut numCompare st.numberRoot k v1).setColor BLACK)
              k v2).setColor BLACK) :=
        sortedT_setColor _ _ (sortedT_treePut cmpOk_numCompare _ _ _ hs2)
      rw [findIterKey_eq_firstA cmpOk_numCompare _ _ hs3, hio,
        firstA_listInsert_self cmpOk_numCompare]
      rfl
    · obtain ⟨b1, hb1, hm1⟩ :=
        idxLookup_idxAdd_self st.invertedIndex (jsToString v1) (.num k)
      exact idxLookup_idxAdd_of_mem _ _ _ (jsToString v2) (.num k) b1 hb1 hm1
    · exact idxLookup_idxAdd_self _ (jsToString v2) (.num k)
  · intro st st2 st3 s v1 v2 hne hs hk hlen hne12 h1 h2
    rw [put_str st s v1 hlen] at h1
    cases h1
    rw [put_str _ s v2 hlen] at h2
    cases h2
    have hbr1 : RBTree.treePut strCompare st.stringRoot s v1 =
        RBTree.treePut (measCmp strMeasure) st.stringRoot s v1 :=
      treePut_strCompare_eq _ _ _ hne hk
    have hne2 : allNE ((RBTree.treePut strCompare st.stringRoot s v1).setColor BLACK) :=
      allNE_setColor _ _ (allNE_treePut _ _ _ _ hne hk)
    have hs2 : SortedT (measCmp strMeasure)
        ((RBTree.treePut strCompare st.stringRoot s v1).setColor BLACK) := by
      rw [hbr1]
      exact sortedT_setColor _ _
        (sortedT_treePut (cmpOk_measCmp strMeasure) _ _ _ hs)
    have hbr2 : RBTree.treePut strCompare
        ((RBTree.treePut strCompare st.stringRoot s v1).setColor BLACK) s v2 =
        RBTree.treePut (measCmp strMeasure)
          ((RBTree.treePut strCompare st.stringRoot s v1).setColor BLACK) s v2 :=
      treePut_strCompare_eq _ _ _ hne2 hk
    have hne3 : allNE ((RBTree.treePut strCompare
        ((RBTree.treePut strCompare st.stringRoot s v1).setColor BLACK)
          s v2).setColor BLACK) :=
      allNE_setColor _ _ (allNE_treePut _ _ _ _ hne2 hk)
    have hs3 : SortedT (measCmp strMeasure)
        ((RBTree.treePut strCompare
          ((RBTree.treePut strCompare st.stringRoot s v1).setColor BLACK)
            s v2).setColor BLACK) := by
      rw [hbr2]
      exact sortedT_setColor _ _
        (sortedT_treePut (cmpOk_measCmp strMeasure) _ _ _ hs2)
    have hio : ((RBTree.treePut strCompare
        ((RBTree.treePut strCompare st.stringRoot s v1).setColor BLACK)
          s v2).setColor BLACK).inorder =
        listInsert (measCmp strMeasure)
          (listInsert (measCmp strMeasure) st.stringRoot.inorder s v1) s v2 := by
      rw [RBTree.inorder_setColor, hbr2,
        inorder_treePut (cmpOk_measCmp strMeasure) _ _ _ hs2,
        RBTree.inorder_setColor, hbr1,
        inorder_treePut (cmpOk_measCmp strMeasure) _ _ _ hs]
    have hsl2 : SortedL (measCmp strMeasure)
        (listInsert (measCmp strMeasure) st.stringRoot.inorder s v1) :=
      sortedL_listInsert (cmpOk_measCmp strMeasure) _ _ _ hs
    refine ⟨?_, ?_, ?_, ?_⟩
    · rw [countEq_strCompare_eq _ s hne3 hk, hio]
      exact countEq_listInsert_self (cmpOk_measCmp strMeasure) _ _ _ hsl2
    · rw [findIterKey_strCompare_eq _ _ hne3 hk,
        findIterKey_eq_firstA (cmpOk_measCmp strMeasure) _ _ hs3, hio,
        firstA_listInsert_self (cmpOk_measCmp strMeasure)]
      rfl
    · obtain ⟨b1, hb1, hm1⟩ :=
        idxLookup_idxAdd_self st.invertedIndex (jsToString v1) (.str s)
      exact idxLookup_idxAdd_of_mem _ _ _ (jsToString v2) (.str s) b1 hb1 hm1
    · exact idxLookup_idxAdd_self _ (jsToString v2) (.str s)

/-- C4 witness: the overwrite theorem instantiated at
`put(1, 10); put(1, 20)` and at `put('a', 1); put('a', 2)` on a fresh
tree. -/
theorem overwrite_semantics_witness :
    (countEq numCompare overwriteState.numberRoot.inorder 1 = 1 ∧
     RBTree.findIterKey numCompare overwriteState.numberRoot 1 = .num 20 ∧
     (∃ b1, idxLookup overwriteState.invertedIndex "10" = some b1 ∧ .num 1 ∈ b1) ∧
     (∃ b2, idxLookup overwriteState.invertedIndex "20" = some b2 ∧ .num 1 ∈ b2)) ∧
    (countEq strCompare aOverwriteState.stringRoot.inorder "a" = 1 ∧
     RBTree.findIterKey strCompare aOverwriteState.stringRoot "a" = .num 2 ∧
     (∃ b1, idxLookup aOverwriteState.invertedIndex "1" = some b1 ∧ .str "a" ∈ b1) ∧
     (∃ b2, idxLookup aOverwriteState.invertedIndex "2" = some b2 ∧ .str "a" ∈ b2)) := by
  constructor
  · exact overwrite_semantics.1 RBT.init oneTenState overwriteState
      1 (.num 10) (.num 20)
      (by simp [SortedT, SortedL, RBT.init, RBTree.inorder])
      (by decide) (by rfl) (by rfl)
  · refine overwrite_semantics.2 RBT.init aOneState aOverwriteState
      "a" (.num 1) (.num 2) ?_ ?_ (by decide) (by decide) (by decide)
      (by rfl) (by rfl)
    · intro p hp
      simp [RBT.init, RBTree.inorder] at hp
    · simp [SortedT, SortedL, RBT.init, RBTree.inorder]

/-- C2 (amended): every put of a routable key (a number, or a string
of at most 8 characters) records the new (value, key) association in
the reverse index.  (The exact-set half of the claim is false: updates
do not remove the key from the former value's set, and the delete
path's index clean-up targets the nonexistent `"undefined"` bucket.) -/
theorem put_adds_value_key_association :
    (∀ (st st2 : RBT) (n : Int) (v : JSVal), st.put (.num n) v = .ok st2 →
      ∃ b, idxLookup st2.invertedIndex (jsToString v) = some b ∧ .num n ∈ b) ∧
    (∀ (st st2 : RBT) (s : String) (v : JSVal), st.put (.str s) v = .ok st2 →
      ∃ b, idxLookup st2.invertedIndex (jsToString v) = some b ∧ .str s ∈ b) := by
  constructor
  · intro st st2 n v h
    rw [put_num] at h
    cases h
    exact idxLookup_idxAdd_self _ _ _
  · intro st st2 s v h
    by_cases hlen : s.length > 8
    · simp [RBT.put, hlen] at h
    · rw [put_str st s v hlen] at h
      cases h
      exact idxLookup_idxAdd_self _ _ _

/-- C2 witness: the association theorem instantiated at `put(1, 10)`
and `put('a', 3)` on a fresh tree. -/
theorem put_adds_value_key_association_witness :
    (∃ b, idxLookup oneTenState.invertedIndex "10" = some b ∧ .num 1 ∈ b) ∧
    (∃ b, idxLookup aState.invertedIndex "3" = some b ∧ .str "a" ∈ b) :=
  ⟨put_adds_value_key_association.1 RBT.init oneTenState 1 (.num 10) (by rfl),
   put_adds_value_key_association.2 RBT.init aState "a" (.num 3) (by rfl)⟩

/-- C8 (amended): `remove(null)` raises the invalid-key error, and
removing a missing truthy key (nonzero number, nonempty string) is a
plain `false` that leaves the state untouched; the falsy keys `0` and
`''` instead raise in `find` (see the counterexample). -/
theorem remove_null_raises_and_missing_returns_false :
    (∀ st : RBT, st.remove .null = .error .invalidKey) ∧
    (∀ (st : RBT) (n : Int), n ≠ 0 →
      hasKeyB numCompare st.numberRoot n = false →
      st.remove (.num n) = .ok (false, st)) ∧
    (∀ (st : RBT) (s : String), ¬s = "" →
      hasKeyB strCompare st.stringRoot s = false →
      st.remove (.str s) = .ok (false, st)) := by
  refine ⟨fun st => rfl, ?_, ?_⟩
  · intro st n hn habs
    have hfind := find_key_num st n hn
    have hnull := findIterKey_null_of_absent numCompare st.numberRoot n habs
    simp [RBT.remove, RBT.constains, hfind, hnull, FindResult.truthyR, truthy,
      Bind.bind, Except.bind]
  · intro st s hs habs
    have hfind := find_key_str st s hs
    have hnull := findIterKey_null_of_absent strCompare st.stringRoot s habs
    simp [RBT.remove, RBT.constains, hfind, hnull, FindResult.truthyR, truthy,
      Bind.bind, Except.bind]

/-- C8 witness: the three conjuncts instantiated — `remove(null)` on
the fresh table, `remove(2)` on a table holding only key `1`, and
`remove('b')` on a table holding only the string key `'a'`. -/
theorem remove_null_raises_and_missing_returns_false_witness :
    RBT.init.remove .null = .error .invalidKey ∧
    oneTenState.remove (.num 2) = .ok (false, oneTenState) ∧
    aState.remove (.str "b") = .ok (false, aState) :=
  ⟨remove_null_raises_and_missing_returns_false.1 RBT.init,
   remove_null_raises_and_missing_returns_false.2.1 oneTenState 2
     (by decide) (by decide),
   remove_null_raises_and_missing_returns_false.2.2 aState "b"
     (by decide) (by decide)⟩

/-- C9: `find` decides the presence of `key`/`value` by truthiness, so
for every state, `find({key: 0})` with no truthy value raises 'Key and
value not found'; with a truthy value the result is read purely from
the inverted index (no tree descent ever happens for key `0`); and yet
`put(0, v)` happily stores an entry under key `0`. -/
theorem find_key_zero_unreachable :
    (∀ (st : RBT) (ov : Option JSVal),
      (match ov with | some v => truthy v = false | none => True) →
      st.find { key := some (.num 0), value := ov } = .error .keyValueNotFound) ∧
    (∀ (st : RBT) (v : JSVal), truthy v = true →
      st.find { key := some (.num 0), value := some v } =
        .ok (match idxLookup st.invertedIndex (jsToString v) with
             | some b => .keys b
             | none => .keys [])) ∧
    (∀ (st st2 : RBT) (v : JSVal), st.put (.num 0) v = .ok st2 →
      hasKeyB numCompare st2.numberRoot 0 = true) := by
  refine ⟨?_, ?_, ?_⟩
  · intro st ov hv
    cases ov with
    | none => rfl
    | some v =>
      have hv2 : truthy v = false := hv
      have h0 : truthy (.num 0) = false := rfl
      simp [RBT.find, h0, hv2]
  · intro st v hv
    have h0 : truthy (.num 0) = false := rfl
    simp only [RBT.find, h0, hv, Bool.false_and, Bool.false_eq_true,
      if_false, if_true]
    cases idxLookup st.invertedIndex (jsToString v) <;> simp
  · intro st st2 v h
    rw [put_num] at h
    cases h
    rw [hasKeyB_setColor]
    exact hasKeyB_treePut_self cmpOk_numCompare _ _ _

/-- C9 witness: on the state holding `0 ↦ 5`, a key-only `find` for
`0` raises; with the truthy value `5` it returns the index bucket; and
the `put(0, 5)` that built the state did store key `0`. -/
theorem find_key_zero_unreachable_witness :
    zeroKeyState.find { key := some (.num 0) } = .error .keyValueNotFound ∧
    zeroKeyState.find { key := some (.num 0), value := some (.num 5) } =
      .ok (.keys [.num 0]) ∧
    hasKeyB numCompare zeroKeyState.numberRoot 0 = true :=
  ⟨find_key_zero_unreachable.1 zeroKeyState none trivial,
   find_key_zero_unreachable.2.1 zeroKeyState (.num 5) (by decide),
   find_key_zero_unreachable.2.2 RBT.init zeroKeyState (.num 5) (by rfl)⟩

/-- C10 (amended): for a truthy key whose `find` result is falsy, the
misspelt `constains` coerces that falsy stored value to `false`, so
`remove` reports `false` and leaves the entire structure unchanged,
even though the key is present.  (For falsy keys the claim fails:
`constains` raises instead, see the counterexample.) -/
theorem falsy_value_makes_key_unremovable (st : RBT) (k v : JSVal)
    (hk : truthy k = true)
    (hfind : st.find { key := some k } = .ok (.val v))
    (hv : truthy v = false) :
    st.constains k = .ok false ∧ st.remove k = .ok (false, st) := by
  have hc : st.constains k = .ok false := by
    simp [RBT.constains, hfind, FindResult.truthyR, hv, Bind.bind, Except.bind]
  refine ⟨hc, ?_⟩
  have hknn : ¬k = .null := by
    intro h
    rw [h] at hk
    simp [truthy] at hk
  simp [RBT.remove, hknn, hc, Bind.bind, Except.bind]

/-- C10 witness: on the state holding `1 ↦ 0`, the key `1` is present
but `constains(1)` is `false` and `remove(1)` returns `false` leaving
the state unchanged. -/
theorem falsy_value_makes_key_unremovable_witness :
    oneZeroState.constains (.num 1) = .ok false ∧
    oneZeroState.remove (.num 1) = .ok (false, oneZeroState) :=
  falsy_value_makes_key_unremovable oneZeroState (.num 1) (.num 0)
    (by decide) (by rfl) (by decide)

end RedBlack
